import Mathlib

/-!
Shallow embedding of the liveness-analysis core of
`src/pass/liveness_analysis.h` (class `LivenessAnalyzer` together with its
nested `BackwardAnalyzer` and `VarCreator` helpers), and proofs about it.

Modelling conventions:
* `Var` objects are identified by natural-number ids.  In the C++ source all
  maps over `Var` are keyed by object identity (`ObjectPtrHash` /
  `ObjectPtrEqual`), and `MakeVar` always returns a fresh object; we model
  object identity by handing out increasing ids from a counter
  (`AState.nextId`).  The textual names produced by `CreateTensorVar` are
  modelled separately (`CreateTensorVarName`) for the name-freshness result.
* `std::unordered_map` becomes an association list (`lookupM` / `setM`);
  `std::unordered_set<Var>` (the `VSet` alias) becomes a `List Nat` that is
  only manipulated through `insertV` / `unionV` / `diffV` and membership,
  mirroring `insert`, bulk `insert`, and `erase`.
* `map.at(k)` (which throws `std::out_of_range` when the key is missing) and
  `CHECK` failures are modelled by returning `none`; `map[k]` (which
  default-constructs a missing entry) is modelled with `Option.getD`.
* The recursive `LivenessAnalyzer::Find` is given explicit fuel; a `none`
  result models either the `CHECK` failure (key missing from
  `union_find_forest_`) or divergence on a cyclic parent map.
-/

namespace LivenessAnalysis

/-- Association-list lookup, modelling `std::unordered_map::find` / `at`. -/
def lookupM {κ α : Type} [DecidableEq κ] : List (κ × α) → κ → Option α
  | [], _ => none
  | (k0, v0) :: t, k => if k0 = k then some v0 else lookupM t k

/-- Association-list update, modelling `map[k] = v` (overwrite or insert). -/
def setM {κ α : Type} [DecidableEq κ] : List (κ × α) → κ → α → List (κ × α)
  | [], k, v => [(k, v)]
  | (k0, v0) :: t, k, v => if k0 = k then (k, v) :: t else (k0, v0) :: setM t k v

/-- `std::unordered_set<Var>::insert` of one element. -/
def insertV (s : List Nat) (v : Nat) : List Nat :=
  if v ∈ s then s else s ++ [v]

/-- Bulk `insert(other.begin(), other.end())`: the set union used by
`LivenessAnalyzer::Merge` and `LivenessAnalyzer::Unite`. -/
def unionV (s t : List Nat) : List Nat :=
  t.foldl insertV s

/-- Element-wise `erase`, i.e. the static `LivenessAnalyzer::Remove(vset1,
vset2)`: `vset1 - vset2`. -/
def diffV (s t : List Nat) : List Nat :=
  s.filter (fun v => decide (v ∉ t))

/-- `LivenessAnalyzer::Find`, with explicit fuel.  Returns the root together
with the path-compressed forest (`union_find_forest_[x] = root` performed
after the recursive call, exactly as in the source). -/
def Find : Nat → List (Nat × Nat) → Nat → Option (Nat × List (Nat × Nat))
  | 0, _, _ => none
  | fuel + 1, p, x =>
    match lookupM p x with
    | none => none
    | some px =>
      if x = px then
        some (x, p)
      else
        match Find fuel p px with
        | none => none
        | some (root, p1) => some (root, setM p1 x root)

/-- `x` reaches root `r` by following parent links of the forest `p`; `r`
must be its own parent.  This is the fuel-independent meaning of `Find`,
used to relate pre- and post-compression forests. -/
inductive Reaches (p : List (Nat × Nat)) : Nat → Nat → Prop where
  | root (x : Nat) (h : lookupM p x = some x) : Reaches p x x
  | step (x y r : Nat) (h : lookupM p x = some y) (hne : x ≠ y)
      (h2 : Reaches p y r) : Reaches p x r

/-- `LivenessAnalyzer::Intersect`: walk `inv_live_.at(x)` and test each
element for membership in `inv_live_.at(y)`; `at` throwing on a missing key
is modelled by `none`. -/
def Intersect (inv : List (Nat × List Nat)) (x y : Nat) : Option Bool :=
  match lookupM inv x, lookupM inv y with
  | some sx, some sy => some (sx.any (fun v => decide (v ∈ sy)))
  | _, _ => none

/-- `LivenessAnalyzer::GetTensorVar`: `vset_.at(x)` (abort on a missing
entry: outer `Option`), then the unique element when `vset.size() == 1`,
otherwise the undefined `Var()` (inner `none`). -/
def GetTensorVar (vset : List (Nat × List Nat)) (x : Nat) : Option (Option Nat) :=
  match lookupM vset x with
  | none => none
  | some vs =>
    match vs with
    | [u] => some (some u)
    | _ => some none

/-- `LivenessAnalyzer::Unite`: graft `Find(x)`'s root under `Find(y)`'s root
and union the roots' `inv_live_` sets into the surviving root.
`inv_live_[fy]` (default-constructing on a missing key) is modelled with
`getD []`; `inv_live_.at(fx)` (throwing) by `none`. -/
def Unite (fuel : Nat) (p : List (Nat × Nat)) (inv : List (Nat × List Nat))
    (x y : Nat) : Option (Nat × List (Nat × Nat) × List (Nat × List Nat)) :=
  match Find fuel p x with
  | none => none
  | some (fx, p1) =>
    match Find fuel p1 y with
    | none => none
    | some (fy, p2) =>
      match lookupM inv fx with
      | none => none
      | some sx =>
        some (fy, setM p2 fx fy, setM inv fy (unionV ((lookupM inv fy).getD []) sx))

/-- The per-instance mutable state touched by the variable-creating helpers:
the id counter standing for `MakeVar`'s object freshness, the unit-set map
`vset_`, and the tuple-structure map `vtuple_`. -/
structure AState where
  nextId : Nat
  vset : List (Nat × List Nat)
  vtuple : List (Nat × List Nat)
deriving DecidableEq, Repr

/-- `LivenessAnalyzer::CreateTensorVar(name)` as far as object identity is
concerned: mint a fresh `Var` object (fresh id). -/
def CreateTensorVarId (s : AState) : Nat × AState :=
  (s.nextId, { s with nextId := s.nextId + 1 })

/-- `LivenessAnalyzer::CreateNull`: fresh variable containing nothing. -/
def CreateNull (s : AState) : Nat × AState :=
  let (v, s1) := CreateTensorVarId s
  (v, { s1 with vset := setM s1.vset v [] })

/-- `LivenessAnalyzer::CreateTensor`: fresh variable containing itself. -/
def CreateTensor (s : AState) : Nat × AState :=
  let (v, s1) := CreateTensorVarId s
  (v, { s1 with vset := setM s1.vset v [v] })

/-- `LivenessAnalyzer::Remove(v1, v2)` (member version): fresh variable `rs`
with `vset_[rs] = vset_.at(v1) - vset_.at(v2)`. -/
def RemoveVar (s : AState) (v1 v2 : Nat) : Option (Nat × AState) :=
  match lookupM s.vset v1, lookupM s.vset v2 with
  | some s1, some s2 =>
    let (rs, st) := CreateTensorVarId s
    some (rs, { st with vset := setM st.vset rs (diffV s1 s2) })
  | _, _ => none

/-- `LivenessAnalyzer::Merge(v1, v2)` (member version): fresh variable `ms`
with `vset_[ms] = vset_.at(v1) ∪ vset_.at(v2)`. -/
def MergeVar (s : AState) (v1 v2 : Nat) : Option (Nat × AState) :=
  match lookupM s.vset v1, lookupM s.vset v2 with
  | some s1, some s2 =>
    let (ms, st) := CreateTensorVarId s
    some (ms, { st with vset := setM st.vset ms (unionV s1 s2) })
  | _, _ => none

/-- The `for (i = 2; i < n; ++i) ret = Merge(ret, vars[i])` loop of
`LivenessAnalyzer::Merge(Array<Var>)`. -/
def MergeFold (s : AState) (acc : Nat) : List Nat → Option (Nat × AState)
  | [] => some (acc, s)
  | v :: vs =>
    match MergeVar s acc v with
    | none => none
    | some (r, s') => MergeFold s' r vs

/-- `LivenessAnalyzer::Merge(Array<Var> vars)`: empty → `CreateNull`,
singleton → the variable itself (after the `CHECK` that it has a `vset_`
entry), otherwise a left fold of binary `Merge`. -/
def MergeList (s : AState) (vars : List Nat) : Option (Nat × AState) :=
  match vars with
  | [] => some (CreateNull s)
  | [v] =>
    match lookupM s.vset v with
    | none => none
    | some _ => some (v, s)
  | v1 :: v2 :: rest =>
    match MergeVar s v1 v2 with
    | none => none
    | some (r, s') => MergeFold s' r rest

/-- `BackwardAnalyzer::MergeLive(cur, def)`: make a fresh variable carrying
`live_.at(next_var_)`, subtract `vset_` of `def` when `def` is defined, and
merge in `vset_` of `cur`. -/
def MergeLive (s : AState) (live : List (Nat × List Nat)) (nextVar cur : Nat)
    (d : Option Nat) : Option (Nat × AState) :=
  match lookupM live nextVar with
  | none => none
  | some lv =>
    let (ml, s1) := CreateTensorVarId s
    let s2 : AState := { s1 with vset := setM s1.vset ml lv }
    match d with
    | none => MergeVar s2 ml cur
    | some dv =>
      match RemoveVar s2 ml dv with
      | none => none
      | some (rm, s3) => MergeVar s3 rm cur

/-- The structural types `VarCreator` recurses over: leaf tensor types and
tuple types (`TensorTypeNode` / `TupleTypeNode`). -/
inductive Ty where
  | tensor : Ty
  | tuple : List Ty → Ty

mutual
/-- `LivenessAnalyzer::VarCreator::VisitType_`: a leaf tensor type mints one
fresh self-containing unit; a tuple type visits its fields in order, merges
the field variables, and records them in `vtuple_`. -/
def VisitType (s : AState) : Ty → Option (Nat × AState)
  | .tensor => some (CreateTensor s)
  | .tuple fields =>
    match VisitTypeList s fields with
    | none => none
    | some (vars, s1) =>
      match MergeList s1 vars with
      | none => none
      | some (tv, s2) => some (tv, { s2 with vtuple := setM s2.vtuple tv vars })

/-- The `for (field : op->fields) fields.push_back(VisitType(field))` loop of
`VarCreator::VisitType_(const TupleTypeNode*)`. -/
def VisitTypeList (s : AState) : List Ty → Option (List Nat × AState)
  | [] => some ([], s)
  | t :: ts =>
    match VisitType s t with
    | none => none
    | some (v, s1) =>
      match VisitTypeList s1 ts with
      | none => none
      | some (vs, s2) => some (v :: vs, s2)
end

/-- Well-formedness of the id counter: every `vset_` key was minted earlier
than the counter.  Holds for the states the analyzer actually builds, since
every key is a previously created id. -/
def WFvset (s : AState) : Prop :=
  ∀ k vs, lookupM s.vset k = some vs → k < s.nextId

/-- Decimal rendering of a natural number, modelling `std::to_string` on the
(non-negative) label counter. -/
def toStringNat (n : Nat) : List Char :=
  if n = 0 then ['0'] else ((Nat.digits 10 n).map Nat.digitChar).reverse

/-- The `name + "_" + std::to_string(label)` of
`LivenessAnalyzer::CreateTensorVar`. -/
def fullname (name : List Char) (label : Nat) : List Char :=
  name ++ '_' :: toStringNat label

/-- `LivenessAnalyzer::CreateTensorVar` as far as names are concerned:
`label_[name]` starts at 0 when absent and is post-incremented; the returned
variable's full name is `name + "_" + std::to_string(label)`. -/
def CreateTensorVarName (st : List (List Char × Nat)) (name : List Char) :
    List Char × List (List Char × Nat) :=
  let l := (lookupM st name).getD 0
  (fullname name l, setM st name (l + 1))

/-- A sequence of `CreateTensorVar` calls within one analyzer instance
(threading `label_`), returning the full names in call order. -/
def RunCreateCalls (st : List (List Char × Nat)) : List (List Char) → List (List Char)
  | [] => []
  | n :: ns =>
    let (v, st') := CreateTensorVarName st n
    v :: RunCreateCalls st' ns

/-! ## Map and set lemmas -/

theorem lookupM_setM {κ α : Type} [DecidableEq κ] (m : List (κ × α)) (k k' : κ) (v : α) :
    lookupM (setM m k v) k' = if k = k' then some v else lookupM m k' := by
  induction m with
  | nil =>
    by_cases h : k = k' <;> simp [setM, lookupM, h]
  | cons hd t ih =>
    obtain ⟨k0, v0⟩ := hd
    by_cases h0 : k0 = k
    · subst h0
      by_cases h : k0 = k' <;> simp [setM, lookupM, h]
    · by_cases h1 : k0 = k'
      · subst h1
        have hne : ¬k = k0 := fun he => h0 he.symm
        simp [setM, lookupM, h0, hne]
      · simp [setM, lookupM, h0, h1, ih]

theorem mem_insertV (s : List Nat) (v u : Nat) : u ∈ insertV s v ↔ u ∈ s ∨ u = v := by
  by_cases h : v ∈ s
  · simp only [insertV, if_pos h]
    constructor
    · exact Or.inl
    · rintro (hu | rfl)
      · exact hu
      · exact h
  · simp [insertV, if_neg h]

theorem mem_unionV (s t : List Nat) (u : Nat) : u ∈ unionV s t ↔ u ∈ s ∨ u ∈ t := by
  induction t generalizing s with
  | nil => simp [unionV]
  | cons a t ih =>
    show u ∈ unionV (insertV s a) t ↔ _
    rw [ih, mem_insertV]
    simp only [List.mem_cons]
    tauto

theorem mem_diffV (s t : List Nat) (u : Nat) : u ∈ diffV s t ↔ u ∈ s ∧ u ∉ t := by
  simp [diffV, List.mem_filter]

theorem anyMem_iff (sx sy : List Nat) :
    sx.any (fun v => decide (v ∈ sy)) = true ↔ ∃ v, v ∈ sx ∧ v ∈ sy := by
  simp [List.any_eq_true]

/-! ## Union-find lemmas -/

theorem Reaches.lookup_root {p : List (Nat × Nat)} {x r : Nat}
    (h : Reaches p x r) : lookupM p r = some r := by
  induction h with
  | root x h => exact h
  | step x y r h hne h2 ih => exact ih

theorem Reaches.det {p : List (Nat × Nat)} {x r1 r2 : Nat}
    (h1 : Reaches p x r1) (h2 : Reaches p x r2) : r1 = r2 := by
  induction h1 generalizing r2 with
  | root x h =>
    cases h2 with
    | root _ _ => rfl
    | step _ y _ h' hne h2' =>
      rw [h] at h'
      cases h'
      exact absurd rfl hne
  | step x y r h hne hr ih =>
    cases h2 with
    | root _ h' =>
      rw [h] at h'
      cases h'
      exact absurd rfl hne
    | step _ y' _ h' hne' h2' =>
      rw [h] at h'
      cases h'
      exact ih h2'

theorem Find_sound {fuel : Nat} {p : List (Nat × Nat)} {x r : Nat}
    {p' : List (Nat × Nat)} (h : Find fuel p x = some (r, p')) :
    Reaches p x r := by
  induction fuel generalizing p x r p' with
  | zero => exact absurd h (by simp [Find])
  | succ fuel ih =>
    rw [Find] at h
    split at h
    · exact absurd h (by simp)
    · next px hx =>
      split at h
      · next hxe =>
        cases h
        exact Reaches.root x (hxe ▸ hx)
      · next hxe =>
        split at h
        · exact absurd h (by simp)
        · next root p1 hrec =>
          cases h
          exact Reaches.step x px r hx hxe (ih hrec)

theorem Find_root {fuel : Nat} {p : List (Nat × Nat)} {x r : Nat}
    {p' : List (Nat × Nat)} (h : Find fuel p x = some (r, p')) :
    lookupM p' r = some r := by
  induction fuel generalizing p x r p' with
  | zero => exact absurd h (by simp [Find])
  | succ fuel ih =>
    rw [Find] at h
    split at h
    · exact absurd h (by simp)
    · next px hx =>
      split at h
      · next hxe =>
        cases h
        exact hxe ▸ hx
      · next hxe =>
        split at h
        · exact absurd h (by simp)
        · next root p1 hrec =>
          cases h
          have hroot := ih hrec
          rw [lookupM_setM]
          by_cases hxr : x = r
          · subst hxr
            simp
          · rw [if_neg hxr]
            exact hroot

/-- Preservation of root entries: compressing paths never turns a root into
a non-root. -/
theorem Find_preserves_root {fuel : Nat} {p : List (Nat × Nat)} {x r : Nat}
    {p' : List (Nat × Nat)} (h : Find fuel p x = some (r, p'))
    {z : Nat} (hz : lookupM p z = some z) : lookupM p' z = some z := by
  induction fuel generalizing p x r p' with
  | zero => exact absurd h (by simp [Find])
  | succ fuel ih =>
    rw [Find] at h
    split at h
    · exact absurd h (by simp)
    · next px hx =>
      split at h
      · next hxe =>
        cases h
        exact hz
      · next hxe =>
        split at h
        · exact absurd h (by simp)
        · next root p1 hrec =>
          cases h
          rw [lookupM_setM]
          by_cases hxz : x = z
          · subst hxz
            rw [hz] at hx
            cases hx
            exact absurd rfl hxe
          · rw [if_neg hxz]
            exact ih hrec hz

/-- Redirecting a node `x` to its own root `r` preserves every `Reaches`
fact (a single path-compression step). -/
theorem Reaches_setM_self {p : List (Nat × Nat)} {x r : Nat}
    (hxr : Reaches p x r) {z s : Nat} (hz : Reaches p z s) :
    Reaches (setM p x r) z s := by
  induction hz with
  | root z h =>
    by_cases hzx : z = x
    · subst hzx
      have hr : r = z := Reaches.det hxr (Reaches.root z h)
      subst hr
      exact Reaches.root r (by rw [lookupM_setM, if_pos rfl])
    · exact Reaches.root z (by rw [lookupM_setM, if_neg (fun he => hzx he.symm)]; exact h)
  | step z y s h hne h2 ih =>
    by_cases hzx : z = x
    · subst hzx
      have hsr : s = r := Reaches.det (Reaches.step z y s h hne h2) hxr
      subst hsr
      by_cases hzs : z = s
      · subst hzs
        exact Reaches.root z (by rw [lookupM_setM, if_pos rfl])
      · refine Reaches.step z s s (by rw [lookupM_setM, if_pos rfl]) hzs ?_
        refine Reaches.root s ?_
        rw [lookupM_setM, if_neg hzs]
        exact hxr.lookup_root
    · exact Reaches.step z y s
        (by rw [lookupM_setM, if_neg (fun he => hzx he.symm)]; exact h) hne ih

/-- Path compression (`Find`) preserves every `Reaches` fact. -/
theorem Find_preserves {fuel : Nat} {p : List (Nat × Nat)} {x r : Nat}
    {p' : List (Nat × Nat)} (h : Find fuel p x = some (r, p'))
    {z s : Nat} (hz : Reaches p z s) : Reaches p' z s := by
  induction fuel generalizing p x r p' z s with
  | zero => exact absurd h (by simp [Find])
  | succ fuel ih =>
    rw [Find] at h
    split at h
    · exact absurd h (by simp)
    · next px hx =>
      split at h
      · next hxe =>
        cases h
        exact hz
      · next hxe =>
        split at h
        · exact absurd h (by simp)
        · next rt p1 hrec =>
          cases h
          have hxr : Reaches p x r := Reaches.step x px r hx hxe (Find_sound hrec)
          exact Reaches_setM_self (ih hrec hxr) (ih hrec hz)

/-- Redirecting one root `fx` under another root `fy` (the `Unite` graft):
everything that reached `fx` now reaches `fy`, and everything else keeps its
root. -/
theorem Reaches_redirect {p : List (Nat × Nat)} {fx fy : Nat}
    (hfx : lookupM p fx = some fx) (hfy : lookupM p fy = some fy)
    {z s : Nat} (hz : Reaches p z s) :
    (s = fx → Reaches (setM p fx fy) z fy) ∧
    (s ≠ fx → Reaches (setM p fx fy) z s) := by
  induction hz with
  | root z h =>
    constructor
    · intro h1
      subst h1
      have hfy' : lookupM (setM p z fy) fy = some fy := by
        rw [lookupM_setM]
        by_cases hzy : z = fy
        · rw [if_pos hzy]
        · rw [if_neg hzy]
          exact hfy
      by_cases hzy : z = fy
      · subst hzy
        exact Reaches.root z hfy'
      · exact Reaches.step z fy fy (by rw [lookupM_setM, if_pos rfl]) hzy
          (Reaches.root fy hfy')
    · intro h1
      exact Reaches.root z (by rw [lookupM_setM, if_neg (fun he => h1 he.symm)]; exact h)
  | step z y s h hne h2 ih =>
    have hznfx : z ≠ fx := by
      intro hzf
      subst hzf
      rw [hfx] at h
      cases h
      exact absurd rfl hne
    have hlook : lookupM (setM p fx fy) z = some y := by
      rw [lookupM_setM, if_neg (fun he => hznfx he.symm)]
      exact h
    constructor
    · intro h1
      exact Reaches.step z y fy hlook hne (ih.1 h1)
    · intro h1
      exact Reaches.step z y s hlook hne (ih.2 h1)

theorem any_mem_comm (sx sy : List Nat) :
    sx.any (fun v => decide (v ∈ sy)) = sy.any (fun v => decide (v ∈ sx)) := by
  by_cases h : ∃ v, v ∈ sx ∧ v ∈ sy
  · obtain ⟨v, h1, h2⟩ := h
    rw [(anyMem_iff sx sy).mpr ⟨v, h1, h2⟩, (anyMem_iff sy sx).mpr ⟨v, h2, h1⟩]
  · have h2 : ¬∃ v, v ∈ sy ∧ v ∈ sx := by
      rintro ⟨v, a, b⟩
      exact h ⟨v, b, a⟩
    have e1 : sx.any (fun v => decide (v ∈ sy)) = false := by
      rw [Bool.eq_false_iff]
      intro hc
      exact h ((anyMem_iff sx sy).mp hc)
    have e2 : sy.any (fun v => decide (v ∈ sx)) = false := by
      rw [Bool.eq_false_iff]
      intro hc
      exact h2 ((anyMem_iff sy sx).mp hc)
    rw [e1, e2]

/-! ## Claim theorems -/

/-- C5: whenever `Find` succeeds on a unit `x`, the representative it returns
is a root of the forest (a unit that is its own parent), and calling `Find`
on that representative returns it unchanged: `Find(Find(x)) == Find(x)`. -/
theorem Find_idempotent {fuel : Nat} {p : List (Nat × Nat)} {x r : Nat}
    {p' : List (Nat × Nat)} (h : Find fuel p x = some (r, p')) (g : Nat)
    (hg : 0 < g) :
    lookupM p' r = some r ∧ Find g p' r = some (r, p') := by
  have hroot := Find_root h
  refine ⟨hroot, ?_⟩
  match g, hg with
  | g' + 1, _ => simp [Find, hroot]

/-- Witness for C5 on the concrete two-node forest `0 → 1, 1 → 1`. -/
theorem Find_idempotent_witness :
    lookupM [(0, 1), (1, 1)] 1 = some 1 ∧
    Find 2 [(0, 1), (1, 1)] 1 = some (1, [(0, 1), (1, 1)]) :=
  Find_idempotent
    (by decide : Find 3 [(0, 1), (1, 1)] 0 = some (1, [(0, 1), (1, 1)])) 2
    (by decide)

/-- C8: `Intersect` is symmetric in its two arguments (also when entries are
missing and it aborts). -/
theorem Intersect_symm (inv : List (Nat × List Nat)) (x y : Nat) :
    Intersect inv x y = Intersect inv y x := by
  unfold Intersect
  cases hx : lookupM inv x <;> cases hy : lookupM inv y <;> simp [any_mem_comm]

/-- C9: calling `Find` on a unit that is not a key of the union-find forest,
`Intersect` on a unit with no `inv_live_` entry (in either argument
position), or `GetTensorVar` on a variable with no `vset_` entry aborts
(modelled by `none`, standing for the `CHECK` failure / `at` throwing)
instead of returning a default value. -/
theorem missing_entry_aborts (fuel : Nat) (p : List (Nat × Nat))
    (inv vset : List (Nat × List Nat)) (x z w v : Nat)
    (h1 : lookupM p x = none) (h2 : lookupM inv z = none)
    (h3 : lookupM vset v = none) :
    Find fuel p x = none ∧ Intersect inv z w = none ∧ Intersect inv w z = none ∧
      GetTensorVar vset v = none := by
  refine ⟨?_, ?_, ?_, ?_⟩
  · cases fuel with
    | zero => rfl
    | succ f => simp [Find, h1]
  · simp [Intersect, h2]
  · cases hw : lookupM inv w <;> simp [Intersect, h2, hw]
  · simp [GetTensorVar, h3]

/-- Witness for C9 on empty maps. -/
theorem missing_entry_aborts_witness :
    Find 1 [] 0 = none ∧ Intersect [] 0 0 = none ∧ Intersect [] 0 0 = none ∧
      GetTensorVar [] 0 = none :=
  missing_entry_aborts 1 [] [] [] 0 0 0 0 (by decide) (by decide) (by decide)

/-- C6: for a variable with a `vset_` entry, `GetTensorVar` returns the
unique unit exactly when the entry is a singleton, and the undefined `Var()`
(inner `none`) exactly when the entry is empty or has two or more
elements. -/
theorem GetTensorVar_spec (vset : List (Nat × List Nat)) (x u : Nat)
    (vs : List Nat) (h : lookupM vset x = some vs) :
    (GetTensorVar vset x = some (some u) ↔ vs = [u]) ∧
    (GetTensorVar vset x = some none ↔ (vs = [] ∨ 2 ≤ vs.length)) := by
  rcases vs with _ | ⟨a, _ | ⟨b, t⟩⟩
  · simp [GetTensorVar, h]
  · simp [GetTensorVar, h]
  · simp [GetTensorVar, h]

/-- Witness for C6 on the singleton entry `0 ↦ {5}`. -/
theorem GetTensorVar_spec_witness :
    (GetTensorVar [(0, [5])] 0 = some (some 5) ↔ ([5] : List Nat) = [5]) ∧
    (GetTensorVar [(0, [5])] 0 = some none ↔ (([5] : List Nat) = [] ∨ 2 ≤ ([5] : List Nat).length)) :=
  GetTensorVar_spec [(0, [5])] 0 5 [5] (by decide)

/-- C1 (counterexample): `Intersect` does not canonicalise its arguments
through `Find`.  In the forest `0 → 1, 1 → 1, 2 → 2` with `inv_live` entries
`0 ↦ {10}, 1 ↦ {10, 20}, 2 ↦ {20}` (the state left behind by a
`Unite(0, 1)`, which enlarges the root's entry but not the child's),
`Intersect(0, 2)` is `false` even though `inv_live[Find(0)] = inv_live[1]`
and `inv_live[Find(2)] = inv_live[2]` share the anchor 20 — contradicting
the claim's "true iff `inv_live[Find(a)]` and `inv_live[Find(b)]` share an
anchor". -/
theorem Intersect_not_find_canonical_cex :
    Intersect [(0, [10]), (1, [10, 20]), (2, [20])] 0 2 = some false ∧
    Find 3 [(0, 1), (1, 1), (2, 2)] 0 = some (1, [(0, 1), (1, 1), (2, 2)]) ∧
    Find 3 [(0, 1), (1, 1), (2, 2)] 2 = some (2, [(0, 1), (1, 1), (2, 2)]) ∧
    lookupM [(0, [10]), (1, [10, 20]), (2, [20])] 1 = some [10, 20] ∧
    lookupM [(0, [10]), (1, [10, 20]), (2, [20])] 2 = some [20] ∧
    (20 : Nat) ∈ [10, 20] ∧ (20 : Nat) ∈ [20] := by
  decide

/-- C1 (amended): for units `a` and `b` with `inv_live_` entries,
`Intersect(a, b)` is true iff `inv_live[a]` and `inv_live[b]` themselves
share at least one anchor-variable; the arguments are not canonicalised
through `Find`, so for a non-root unit the result may differ from that of
its representative. -/
theorem Intersect_mem_spec (inv : List (Nat × List Nat)) (x y : Nat)
    (sx sy : List Nat) (hx : lookupM inv x = some sx)
    (hy : lookupM inv y = some sy) :
    Intersect inv x y = some true ↔ ∃ v, v ∈ sx ∧ v ∈ sy := by
  simp [Intersect, hx, hy, List.any_eq_true]

/-- Witness for the amended C1. -/
theorem Intersect_mem_spec_witness :
    Intersect [(0, [1, 2]), (3, [2])] 0 3 = some true ↔
      ∃ v, v ∈ ([1, 2] : List Nat) ∧ v ∈ [2] :=
  Intersect_mem_spec [(0, [1, 2]), (3, [2])] 0 3 [1, 2] [2] (by decide) (by decide)

/-- C2: when `Unite(a, b)` succeeds (both `Find`s succeed and both roots have
`inv_live_` entries), afterwards `Find(a) == Find(b)` — any pair of
successful post-merge `Find` calls returns the same root — and the surviving
root's `inv_live_` entry is a superset of both roots' pre-merge entries. -/
theorem Unite_find_eq_and_superset (fuel g1 g2 : Nat) (p : List (Nat × Nat))
    (inv : List (Nat × List Nat)) (a b fa fb ra rb : Nat)
    (p1 p2 pa pb : List (Nat × Nat)) (sa sb : List Nat)
    (h1 : Find fuel p a = some (fa, p1)) (h2 : Find fuel p1 b = some (fb, p2))
    (ha : lookupM inv fa = some sa) (hb : lookupM inv fb = some sb)
    (hf1 : Find g1 (setM p2 fa fb) a = some (ra, pa))
    (hf2 : Find g2 pa b = some (rb, pb)) :
    Unite fuel p inv a b = some (fb, setM p2 fa fb, setM inv fb (unionV sb sa)) ∧
    ra = rb ∧
    lookupM (setM inv fb (unionV sb sa)) fb = some (unionV sb sa) ∧
    sa ⊆ unionV sb sa ∧ sb ⊆ unionV sb sa := by
  have hRa : Reaches p2 a fa :=
    Find_preserves h2 (Find_preserves h1 (Find_sound h1))
  have hRb : Reaches p2 b fb := Find_preserves h2 (Find_sound h2)
  have hrootb : lookupM p2 fb = some fb := Find_root h2
  have hroota : lookupM p2 fa = some fa := Find_preserves_root h2 (Find_root h1)
  have hRa' : Reaches (setM p2 fa fb) a fb :=
    (Reaches_redirect hroota hrootb hRa).1 rfl
  have hRb' : Reaches (setM p2 fa fb) b fb := by
    by_cases hfe : fb = fa
    · exact (Reaches_redirect hroota hrootb hRb).1 hfe
    · exact (Reaches_redirect hroota hrootb hRb).2 hfe
  refine ⟨?_, ?_, ?_, ?_, ?_⟩
  · simp [Unite, h1, h2, ha, hb]
  · have hra : ra = fb := Reaches.det (Find_sound hf1) hRa'
    have hrb : rb = fb := Reaches.det (Find_sound hf2) (Find_preserves hf1 hRb')
    rw [hra, hrb]
  · rw [lookupM_setM, if_pos rfl]
  · intro u hu
    exact (mem_unionV sb sa u).mpr (Or.inr hu)
  · intro u hu
    exact (mem_unionV sb sa u).mpr (Or.inl hu)

/-- Witness for C2: two singleton classes `0` and `1` with
`inv_live = {0 ↦ {3}, 1 ↦ {4}}` are united. -/
theorem Unite_find_eq_and_superset_witness :
    Unite 2 [(0, 0), (1, 1)] [(0, [3]), (1, [4])] 0 1 =
      some (1, setM [(0, 0), (1, 1)] 0 1, setM [(0, [3]), (1, [4])] 1 (unionV [4] [3])) ∧
    (1 : Nat) = 1 ∧
    lookupM (setM [(0, [3]), (1, [4])] 1 (unionV [4] [3])) 1 = some (unionV [4] [3]) ∧
    ([3] : List Nat) ⊆ unionV [4] [3] ∧ ([4] : List Nat) ⊆ unionV [4] [3] :=
  Unite_find_eq_and_superset 2 2 2 [(0, 0), (1, 1)] [(0, [3]), (1, [4])]
    0 1 0 1 1 1 [(0, 0), (1, 1)] [(0, 0), (1, 1)] (setM [(0, 0), (1, 1)] 0 1)
    (setM [(0, 0), (1, 1)] 0 1) [3] [4]
    (by decide) (by decide) (by decide) (by decide) (by decide) (by decide)

/-- C10 (counterexample): when `x` and `y` are already in the same class,
the former root of `x`'s class does not become a non-root child: on the
one-node forest `0 → 0`, after `Unite(0, 0)` the former root 0 is still its
own parent, contradicting the claim's "the former root of x's class becomes
a non-root child". -/
theorem Unite_same_class_cex :
    Unite 2 [(0, 0)] [(0, [])] 0 0 = some (0, [(0, 0)], [(0, [])]) ∧
    lookupM [(0, 0)] 0 = some 0 := by
  decide

/-- C10 (amended): when `Unite(x, y)` succeeds, the surviving root is the
pre-call `Find(y)`, which is also the value `Unite` returns; the former root
of `x`'s class gets its parent pointer set to the surviving root, so it is a
non-root child whenever the two pre-call roots differ (when they coincide it
simply remains the root). -/
theorem Unite_grafts_spec (fuel g h : Nat) (p : List (Nat × Nat))
    (inv : List (Nat × List Nat)) (x y r fy0 fx0 : Nat)
    (p' py px : List (Nat × Nat)) (inv' : List (Nat × List Nat))
    (hu : Unite fuel p inv x y = some (r, p', inv'))
    (hy : Find g p y = some (fy0, py)) (hx : Find h p x = some (fx0, px)) :
    r = fy0 ∧ lookupM p' fx0 = some r ∧
      (fx0 ≠ r → lookupM p' fx0 ≠ some fx0) := by
  unfold Unite at hu
  split at hu
  · exact absurd hu (by simp)
  · next fx p1 hfx =>
    split at hu
    · exact absurd hu (by simp)
    · next fy p2 hfy =>
      split at hu
      · exact absurd hu (by simp)
      · next sx hsx =>
        cases hu
        have hfx0 : fx0 = fx := Reaches.det (Find_sound hx) (Find_sound hfx)
        have hfy0 : fy0 = r :=
          Reaches.det (Find_preserves hfx (Find_sound hy)) (Find_sound hfy)
        refine ⟨hfy0.symm, ?_, ?_⟩
        · rw [hfx0, lookupM_setM, if_pos rfl]
        · intro hne hc
          rw [hfx0, lookupM_setM, if_pos rfl] at hc
          have hrfx : r = fx := Option.some.inj hc
          exact hne (hfx0.trans hrfx.symm)

/-- Witness for the amended C10: uniting the two-class forest
`0 → 0, 1 → 1`. -/
theorem Unite_grafts_spec_witness :
    (1 : Nat) = 1 ∧ lookupM [(0, 1), (1, 1)] 0 = some 1 ∧
      ((0 : Nat) ≠ 1 → lookupM [(0, 1), (1, 1)] 0 ≠ some 0) :=
  Unite_grafts_spec 2 2 2 [(0, 0), (1, 1)] [(0, [3]), (1, [4])] 0 1 1 1 0
    [(0, 1), (1, 1)] [(0, 0), (1, 1)] [(0, 0), (1, 1)] [(0, [3]), (1, [4, 3])]
    (by decide) (by decide) (by decide)

/-- C3: in a backward-pass state where `live_[next_var_]` is defined and the
operand variables have `vset_` entries (and, as the analyzer guarantees for
real states, the operands were minted before the current id counter),
`MergeLive(cur, def)` returns a variable whose `vset_` entry is
`(live_[next_var_] \ vset_[def]) ∪ vset_[cur]`, and
`live_[next_var_] ∪ vset_[cur]` when `def` is undefined — the liveness
recurrence for the line binding `def` with use-units `cur`. -/
theorem MergeLive_spec (s : AState) (live : List (Nat × List Nat))
    (nextVar cur dv : Nat) (lv cs ds : List Nat)
    (hlv : lookupM live nextVar = some lv)
    (hcs : lookupM s.vset cur = some cs) (hcur : cur < s.nextId)
    (hds : lookupM s.vset dv = some ds) (hdv : dv < s.nextId) :
    (MergeLive s live nextVar cur (some dv) =
        some (s.nextId + 1 + 1,
          ⟨s.nextId + 1 + 1 + 1,
           setM (setM (setM s.vset s.nextId lv) (s.nextId + 1) (diffV lv ds))
             (s.nextId + 1 + 1) (unionV (diffV lv ds) cs), s.vtuple⟩) ∧
      lookupM
        (setM (setM (setM s.vset s.nextId lv) (s.nextId + 1) (diffV lv ds))
          (s.nextId + 1 + 1) (unionV (diffV lv ds) cs)) (s.nextId + 1 + 1) =
        some (unionV (diffV lv ds) cs) ∧
      (∀ u, u ∈ unionV (diffV lv ds) cs ↔ ((u ∈ lv ∧ u ∉ ds) ∨ u ∈ cs))) ∧
    (MergeLive s live nextVar cur none =
        some (s.nextId + 1,
          ⟨s.nextId + 1 + 1,
           setM (setM s.vset s.nextId lv) (s.nextId + 1) (unionV lv cs),
           s.vtuple⟩) ∧
      lookupM (setM (setM s.vset s.nextId lv) (s.nextId + 1) (unionV lv cs))
        (s.nextId + 1) = some (unionV lv cs) ∧
      (∀ u, u ∈ unionV lv cs ↔ (u ∈ lv ∨ u ∈ cs))) := by
  have hne_c : s.nextId ≠ cur := ne_of_gt hcur
  have hne_d : s.nextId ≠ dv := ne_of_gt hdv
  have hne_c1 : s.nextId + 1 ≠ cur := ne_of_gt (Nat.lt_succ_of_lt hcur)
  refine ⟨⟨?_, ?_, ?_⟩, ?_, ?_, ?_⟩
  · simp [MergeLive, CreateTensorVarId, RemoveVar, MergeVar, hlv, hcs, hds,
      lookupM_setM, hne_c, hne_d, hne_c1]
  · rw [lookupM_setM, if_pos rfl]
  · intro u
    rw [mem_unionV, mem_diffV]
  · simp [MergeLive, CreateTensorVarId, MergeVar, hlv, hcs, lookupM_setM,
      hne_c, hne_c1]
  · rw [lookupM_setM, if_pos rfl]
  · intro u
    rw [mem_unionV]

/-- Witness for C3: state with counter 2, `vset = {0 ↦ {100}, 1 ↦ {100, 101}}`,
`live = {9 ↦ {100, 101, 102}}`, `cur = 0`, `def = 1`. -/
theorem MergeLive_spec_witness :
    (MergeLive ⟨2, [(0, [100]), (1, [100, 101])], []⟩ [(9, [100, 101, 102])] 9 0
          (some 1) =
        some (2 + 1 + 1,
          ⟨2 + 1 + 1 + 1,
           setM (setM (setM [(0, [100]), (1, [100, 101])] 2 [100, 101, 102])
               (2 + 1) (diffV [100, 101, 102] [100, 101]))
             (2 + 1 + 1) (unionV (diffV [100, 101, 102] [100, 101]) [100]), []⟩) ∧
      lookupM
        (setM (setM (setM [(0, [100]), (1, [100, 101])] 2 [100, 101, 102])
            (2 + 1) (diffV [100, 101, 102] [100, 101]))
          (2 + 1 + 1) (unionV (diffV [100, 101, 102] [100, 101]) [100]))
        (2 + 1 + 1) =
        some (unionV (diffV [100, 101, 102] [100, 101]) [100]) ∧
      (∀ u, u ∈ unionV (diffV [100, 101, 102] [100, 101]) [100] ↔
        ((u ∈ [100, 101, 102] ∧ u ∉ ([100, 101] : List Nat)) ∨ u ∈ [100]))) ∧
    (MergeLive ⟨2, [(0, [100]), (1, [100, 101])], []⟩ [(9, [100, 101, 102])] 9 0
          none =
        some (2 + 1,
          ⟨2 + 1 + 1,
           setM (setM [(0, [100]), (1, [100, 101])] 2 [100, 101, 102]) (2 + 1)
             (unionV [100, 101, 102] [100]),
           []⟩) ∧
      lookupM
        (setM (setM [(0, [100]), (1, [100, 101])] 2 [100, 101, 102]) (2 + 1)
          (unionV [100, 101, 102] [100])) (2 + 1) =
        some (unionV [100, 101, 102] [100]) ∧
      (∀ u, u ∈ unionV [100, 101, 102] [100] ↔
        (u ∈ [100, 101, 102] ∨ u ∈ [100]))) :=
  MergeLive_spec ⟨2, [(0, [100]), (1, [100, 101])], []⟩ [(9, [100, 101, 102])]
    9 0 1 [100, 101, 102] [100] [100, 101]
    (by decide) (by decide) (by decide) (by decide) (by decide)

theorem MergeVar_eq (s : AState) (v1 v2 : Nat) (s1 s2 : List Nat)
    (h1 : lookupM s.vset v1 = some s1) (h2 : lookupM s.vset v2 = some s2) :
    MergeVar s v1 v2 =
      some (s.nextId,
        ⟨s.nextId + 1, setM s.vset s.nextId (unionV s1 s2), s.vtuple⟩) := by
  simp [MergeVar, CreateTensorVarId, h1, h2]

theorem MergeFold_spec (vars : List Nat) :
    ∀ (s : AState) (acc : Nat) (A : List Nat),
      lookupM s.vset acc = some A → acc < s.nextId →
      (∀ v ∈ vars, v < s.nextId) →
      (∀ v ∈ vars, ∃ B, lookupM s.vset v = some B) →
      ∃ r s' R, MergeFold s acc vars = some (r, s') ∧
        s.nextId ≤ s'.nextId ∧ r < s'.nextId ∧
        (∀ k, k < s.nextId → lookupM s'.vset k = lookupM s.vset k) ∧
        s'.vtuple = s.vtuple ∧
        lookupM s'.vset r = some R ∧
        (∀ u, u ∈ R ↔
          (u ∈ A ∨ ∃ v ∈ vars, ∃ B, lookupM s.vset v = some B ∧ u ∈ B)) := by
  induction vars with
  | nil =>
    intro s acc A hA hacc _ _
    exact ⟨acc, s, A, rfl, le_refl _, hacc, fun k _ => rfl, rfl, hA,
      fun u => by simp⟩
  | cons v vs ih =>
    intro s acc A hA hacc hlt hent
    obtain ⟨B, hB⟩ := hent v (List.mem_cons_self v vs)
    have hveq := MergeVar_eq s acc v A B hA hB
    have hA1 : lookupM (setM s.vset s.nextId (unionV A B)) s.nextId =
        some (unionV A B) := by
      rw [lookupM_setM, if_pos rfl]
    have hpres1 : ∀ k, k < s.nextId →
        lookupM (setM s.vset s.nextId (unionV A B)) k = lookupM s.vset k := by
      intro k hk
      rw [lookupM_setM, if_neg (ne_of_gt hk)]
    obtain ⟨r, s', R, heq, hle, hr, hpres, htup, hR, hmem⟩ :=
      ih ⟨s.nextId + 1, setM s.vset s.nextId (unionV A B), s.vtuple⟩ s.nextId
        (unionV A B) hA1 (Nat.lt_succ_self _)
        (fun w hw => Nat.lt_succ_of_lt (hlt w (List.mem_cons_of_mem v hw)))
        (fun w hw => by
          obtain ⟨Bw, hBw⟩ := hent w (List.mem_cons_of_mem v hw)
          exact ⟨Bw, by
            rw [hpres1 w (hlt w (List.mem_cons_of_mem v hw))]
            exact hBw⟩)
    refine ⟨r, s', R, ?_, ?_, hr, ?_, htup, hR, ?_⟩
    · simp only [MergeFold, hveq]
      exact heq
    · exact le_trans (Nat.le_succ _) hle
    · intro k hk
      rw [hpres k (Nat.lt_succ_of_lt hk)]
      exact hpres1 k hk
    · intro u
      rw [hmem u, mem_unionV]
      constructor
      · rintro ((hu | hu) | ⟨w, hw, Bw, hBw, hu⟩)
        · exact Or.inl hu
        · exact Or.inr ⟨v, List.mem_cons_self v vs, B, hB, hu⟩
        · have hw' : lookupM s.vset w = some Bw := by
            rw [← hpres1 w (hlt w (List.mem_cons_of_mem v hw))]
            exact hBw
          exact Or.inr ⟨w, List.mem_cons_of_mem v hw, Bw, hw', hu⟩
      · rintro (hu | ⟨w, hw, Bw, hBw, hu⟩)
        · exact Or.inl (Or.inl hu)
        · rcases List.mem_cons.mp hw with rfl | hw'
          · have hBB : Bw = B := by
              rw [hB] at hBw
              exact (Option.some.inj hBw).symm
            exact Or.inl (Or.inr (hBB ▸ hu))
          · refine Or.inr ⟨w, hw', Bw, ?_, hu⟩
            rw [hpres1 w (hlt w (List.mem_cons_of_mem v hw'))]
            exact hBw

theorem MergeList_spec (s : AState) (vars : List Nat)
    (hlt : ∀ v ∈ vars, v < s.nextId)
    (hent : ∀ v ∈ vars, ∃ B, lookupM s.vset v = some B) :
    ∃ r s' R, MergeList s vars = some (r, s') ∧
      s.nextId ≤ s'.nextId ∧ r < s'.nextId ∧
      (∀ k, k < s.nextId → lookupM s'.vset k = lookupM s.vset k) ∧
      s'.vtuple = s.vtuple ∧
      lookupM s'.vset r = some R ∧
      (∀ u, u ∈ R ↔ ∃ v ∈ vars, ∃ B, lookupM s.vset v = some B ∧ u ∈ B) := by
  rcases vars with _ | ⟨v1, _ | ⟨v2, rest⟩⟩
  · refine ⟨s.nextId, ⟨s.nextId + 1, setM s.vset s.nextId [], s.vtuple⟩, [],
      ?_, Nat.le_succ _, Nat.lt_succ_self _, ?_, rfl, ?_, ?_⟩
    · simp [MergeList, CreateNull, CreateTensorVarId]
    · intro k hk
      exact (lookupM_setM _ _ _ _).trans (if_neg (ne_of_gt hk))
    · rw [lookupM_setM, if_pos rfl]
    · intro u
      simp
  · obtain ⟨B, hB⟩ := hent v1 (List.mem_cons_self v1 [])
    refine ⟨v1, s, B, ?_, le_refl _, hlt v1 (List.mem_cons_self v1 []),
      fun k _ => rfl, rfl, hB, ?_⟩
    · simp [MergeList, hB]
    · intro u
      constructor
      · intro hu
        exact ⟨v1, List.mem_cons_self v1 [], B, hB, hu⟩
      · rintro ⟨w, hw, Bw, hBw, hu⟩
        rcases List.mem_cons.mp hw with rfl | hw'
        · have hBB : Bw = B := by
            rw [hB] at hBw
            exact (Option.some.inj hBw).symm
          exact hBB ▸ hu
        · exact absurd hw' (List.not_mem_nil w)
  · obtain ⟨B1, hB1⟩ := hent v1 (List.mem_cons_self v1 _)
    obtain ⟨B2, hB2⟩ := hent v2 (List.mem_cons_of_mem v1 (List.mem_cons_self v2 _))
    have hveq := MergeVar_eq s v1 v2 B1 B2 hB1 hB2
    have hA1 : lookupM (setM s.vset s.nextId (unionV B1 B2)) s.nextId =
        some (unionV B1 B2) := by
      rw [lookupM_setM, if_pos rfl]
    have hpres1 : ∀ k, k < s.nextId →
        lookupM (setM s.vset s.nextId (unionV B1 B2)) k = lookupM s.vset k := by
      intro k hk
      rw [lookupM_setM, if_neg (ne_of_gt hk)]
    have hmemrest : ∀ w ∈ rest, w ∈ v1 :: v2 :: rest := by
      intro w hw
      exact List.mem_cons_of_mem v1 (List.mem_cons_of_mem v2 hw)
    obtain ⟨r, s', R, heq, hle, hr, hpres, htup, hR, hmem⟩ :=
      MergeFold_spec rest ⟨s.nextId + 1, setM s.vset s.nextId (unionV B1 B2), s.vtuple⟩
        s.nextId (unionV B1 B2) hA1 (Nat.lt_succ_self _)
        (fun w hw => Nat.lt_succ_of_lt (hlt w (hmemrest w hw)))
        (fun w hw => by
          obtain ⟨Bw, hBw⟩ := hent w (hmemrest w hw)
          exact ⟨Bw, by
            rw [hpres1 w (hlt w (hmemrest w hw))]
            exact hBw⟩)
    refine ⟨r, s', R, ?_, le_trans (Nat.le_succ _) hle, hr, ?_, htup, hR, ?_⟩
    · simp only [MergeList, hveq]
      exact heq
    · intro k hk
      rw [hpres k (Nat.lt_succ_of_lt hk)]
      exact hpres1 k hk
    · intro u
      rw [hmem u, mem_unionV]
      constructor
      · rintro ((hu | hu) | ⟨w, hw, Bw, hBw, hu⟩)
        · exact ⟨v1, List.mem_cons_self v1 _, B1, hB1, hu⟩
        · exact ⟨v2, List.mem_cons_of_mem v1 (List.mem_cons_self v2 _), B2, hB2, hu⟩
        · have hw' : lookupM s.vset w = some Bw := by
            rw [← hpres1 w (hlt w (hmemrest w hw))]
            exact hBw
          exact ⟨w, hmemrest w hw, Bw, hw', hu⟩
      · rintro ⟨w, hw, Bw, hBw, hu⟩
        rcases List.mem_cons.mp hw with rfl | hw'
        · have hBB : Bw = B1 := by
            rw [hB1] at hBw
            exact (Option.some.inj hBw).symm
          exact Or.inl (Or.inl (hBB ▸ hu))
        · rcases List.mem_cons.mp hw' with rfl | hw''
          · have hBB : Bw = B2 := by
              rw [hB2] at hBw
              exact (Option.some.inj hBw).symm
            exact Or.inl (Or.inr (hBB ▸ hu))
          · refine Or.inr ⟨w, hw'', Bw, ?_, hu⟩
            rw [hpres1 w (hlt w (hmemrest w hw''))]
            exact hBw

mutual
theorem VisitType_spec (t : Ty) (s : AState) :
    ∃ v s', VisitType s t = some (v, s') ∧
      s.nextId ≤ s'.nextId ∧ v < s'.nextId ∧
      (∀ k, k < s.nextId → lookupM s'.vset k = lookupM s.vset k) ∧
      ∃ R, lookupM s'.vset v = some R := by
  cases t with
  | tensor =>
    refine ⟨s.nextId, ⟨s.nextId + 1, setM s.vset s.nextId [s.nextId], s.vtuple⟩,
      ?_, Nat.le_succ _, Nat.lt_succ_self _, ?_, [s.nextId], ?_⟩
    · simp [VisitType, CreateTensor, CreateTensorVarId]
    · intro k hk
      rw [lookupM_setM, if_neg (ne_of_gt hk)]
    · rw [lookupM_setM, if_pos rfl]
  | tuple fields =>
    obtain ⟨vars, s1, heq1, hle1, hlt1, hpres1, hent1⟩ := VisitTypeList_spec fields s
    obtain ⟨tv, s2, R, heq2, hle2, htv, hpres2, htup2, hR, hmem⟩ :=
      MergeList_spec s1 vars hlt1 hent1
    refine ⟨tv, ⟨s2.nextId, s2.vset, setM s2.vtuple tv vars⟩, ?_,
      le_trans hle1 hle2, htv, ?_, R, hR⟩
    · simp [VisitType, heq1, heq2]
    · intro k hk
      rw [hpres2 k (lt_of_lt_of_le hk hle1), hpres1 k hk]

theorem VisitTypeList_spec (ts : List Ty) (s : AState) :
    ∃ vs s', VisitTypeList s ts = some (vs, s') ∧
      s.nextId ≤ s'.nextId ∧
      (∀ v ∈ vs, v < s'.nextId) ∧
      (∀ k, k < s.nextId → lookupM s'.vset k = lookupM s.vset k) ∧
      (∀ v ∈ vs, ∃ B, lookupM s'.vset v = some B) := by
  cases ts with
  | nil =>
    exact ⟨[], s, rfl, le_refl _, fun v hv => absurd hv (List.not_mem_nil v),
      fun k _ => rfl, fun v hv => absurd hv (List.not_mem_nil v)⟩
  | cons t ts =>
    obtain ⟨v, s1, heq1, hle1, hv1, hpres1, R1, hR1⟩ := VisitType_spec t s
    obtain ⟨vs, s2, heq2, hle2, hlt2, hpres2, hent2⟩ := VisitTypeList_spec ts s1
    refine ⟨v :: vs, s2, ?_, le_trans hle1 hle2, ?_, ?_, ?_⟩
    · simp [VisitTypeList, heq1, heq2]
    · intro w hw
      rcases List.mem_cons.mp hw with rfl | hw'
      · exact lt_of_lt_of_le hv1 hle2
      · exact hlt2 w hw'
    · intro k hk
      rw [hpres2 k (lt_of_lt_of_le hk hle1), hpres1 k hk]
    · intro w hw
      rcases List.mem_cons.mp hw with rfl | hw'
      · exact ⟨R1, by rw [hpres2 w hv1]; exact hR1⟩
      · exact hent2 w hw'
end

/-- C4: `CreateNull` returns a fresh variable (its id is the current counter,
not yet a `vset_` key) whose unit-set entry is empty; `CreateTensor` returns
a fresh variable whose unit-set entry is exactly the singleton containing
itself; and for every tuple type, `VarCreator` (`VisitType`) returns a
variable whose unit-set is the union of the recursively created per-field
variables' unit-sets, with `vtuple_` recording those field variables in
field order. -/
theorem VarCreator_spec (s : AState) (fields : List Ty) (hwf : WFvset s) :
    (lookupM s.vset (CreateNull s).1 = none ∧ (CreateNull s).1 = s.nextId ∧
      lookupM (CreateNull s).2.vset (CreateNull s).1 = some []) ∧
    (lookupM s.vset (CreateTensor s).1 = none ∧ (CreateTensor s).1 = s.nextId ∧
      lookupM (CreateTensor s).2.vset (CreateTensor s).1 =
        some [(CreateTensor s).1]) ∧
    (∃ vars s1 tv s' R,
      VisitTypeList s fields = some (vars, s1) ∧
      VisitType s (Ty.tuple fields) = some (tv, s') ∧
      lookupM s'.vtuple tv = some vars ∧
      lookupM s'.vset tv = some R ∧
      (∀ u, u ∈ R ↔ ∃ v ∈ vars, ∃ B, lookupM s1.vset v = some B ∧ u ∈ B)) := by
  have hnone : lookupM s.vset s.nextId = none := by
    cases hl : lookupM s.vset s.nextId with
    | none => rfl
    | some vs => exact absurd (hwf s.nextId vs hl) (lt_irrefl _)
  refine ⟨⟨hnone, rfl, ?_⟩, ⟨hnone, rfl, ?_⟩, ?_⟩
  · show lookupM (setM s.vset s.nextId []) s.nextId = some []
    rw [lookupM_setM, if_pos rfl]
  · show lookupM (setM s.vset s.nextId [s.nextId]) s.nextId = some [s.nextId]
    rw [lookupM_setM, if_pos rfl]
  · obtain ⟨vars, s1, heq1, hle1, hlt1, hpres1, hent1⟩ := VisitTypeList_spec fields s
    obtain ⟨tv, s2, R, heq2, hle2, htv, hpres2, htup2, hR, hmem⟩ :=
      MergeList_spec s1 vars hlt1 hent1
    refine ⟨vars, s1, tv, ⟨s2.nextId, s2.vset, setM s2.vtuple tv vars⟩, R,
      heq1, ?_, ?_, hR, hmem⟩
    · simp [VisitType, heq1, heq2]
    · show lookupM (setM s2.vtuple tv vars) tv = some vars
      rw [lookupM_setM, if_pos rfl]

/-- Witness for C4 on the empty analyzer state and the tuple type
`(tensor, tensor)`. -/
theorem VarCreator_spec_witness :
    (lookupM (⟨0, [], []⟩ : AState).vset (CreateNull ⟨0, [], []⟩).1 = none ∧
      (CreateNull ⟨0, [], []⟩).1 = (⟨0, [], []⟩ : AState).nextId ∧
      lookupM (CreateNull ⟨0, [], []⟩).2.vset (CreateNull ⟨0, [], []⟩).1 =
        some []) ∧
    (lookupM (⟨0, [], []⟩ : AState).vset (CreateTensor ⟨0, [], []⟩).1 = none ∧
      (CreateTensor ⟨0, [], []⟩).1 = (⟨0, [], []⟩ : AState).nextId ∧
      lookupM (CreateTensor ⟨0, [], []⟩).2.vset (CreateTensor ⟨0, [], []⟩).1 =
        some [(CreateTensor ⟨0, [], []⟩).1]) ∧
    (∃ vars s1 tv s' R,
      VisitTypeList ⟨0, [], []⟩ [Ty.tensor, Ty.tensor] = some (vars, s1) ∧
      VisitType ⟨0, [], []⟩ (Ty.tuple [Ty.tensor, Ty.tensor]) = some (tv, s') ∧
      lookupM s'.vtuple tv = some vars ∧
      lookupM s'.vset tv = some R ∧
      (∀ u, u ∈ R ↔ ∃ v ∈ vars, ∃ B, lookupM s1.vset v = some B ∧ u ∈ B)) :=
  VarCreator_spec ⟨0, [], []⟩ [Ty.tensor, Ty.tensor]
    (fun _ _ h => Option.noConfusion h)

/-! ## Name freshness (`CreateTensorVar`) -/

theorem digitChar_inj_lt : ∀ a < 10, ∀ b < 10,
    Nat.digitChar a = Nat.digitChar b → a = b := by
  decide

theorem digitChar_ne_underscore : ∀ a < 10, Nat.digitChar a ≠ '_' := by
  decide

theorem toStringNat_no_underscore (n : Nat) : '_' ∉ toStringNat n := by
  unfold toStringNat
  split
  · decide
  · intro hmem
    rw [List.mem_reverse, List.mem_map] at hmem
    obtain ⟨d, hd, hdc⟩ := hmem
    exact digitChar_ne_underscore d (Nat.digits_lt_base (by norm_num) hd) hdc

theorem map_digitChar_inj : ∀ (l1 l2 : List Nat), (∀ d ∈ l1, d < 10) →
    (∀ d ∈ l2, d < 10) → l1.map Nat.digitChar = l2.map Nat.digitChar →
    l1 = l2 := by
  intro l1
  induction l1 with
  | nil =>
    intro l2 _ _ h
    cases l2 with
    | nil => rfl
    | cons b t => simp at h
  | cons a t ih =>
    intro l2 h1 h2 h
    cases l2 with
    | nil => simp at h
    | cons b t2 =>
      simp only [List.map_cons, List.cons.injEq] at h
      obtain ⟨hab, ht⟩ := h
      have hd := digitChar_inj_lt a (h1 a (List.mem_cons_self a t))
        b (h2 b (List.mem_cons_self b t2)) hab
      rw [hd, ih t2 (fun d hd => h1 d (List.mem_cons_of_mem a hd))
        (fun d hd => h2 d (List.mem_cons_of_mem b hd)) ht]

theorem toStringNat_singleton_zero {n : Nat} (hn : ¬n = 0)
    (h : toStringNat n = ['0']) : False := by
  rw [toStringNat, if_neg hn] at h
  have h' : (Nat.digits 10 n).map Nat.digitChar = ['0'] := by
    have hrev := congrArg List.reverse h
    rw [List.reverse_reverse] at hrev
    simpa using hrev
  have hlen : (Nat.digits 10 n).length = 1 := by
    have := congrArg List.length h'
    simpa using this
  obtain ⟨d, hd⟩ := List.length_eq_one.mp hlen
  rw [hd] at h'
  simp only [List.map_cons, List.map_nil, List.cons.injEq, and_true] at h'
  have hdlt : d < 10 :=
    Nat.digits_lt_base (by norm_num) (hd ▸ List.mem_cons_self d [])
  have hd0 : d = 0 := digitChar_inj_lt d hdlt 0 (by norm_num) h'
  have hzero : n = 0 := by
    have hof := Nat.ofDigits_digits 10 n
    rw [hd, hd0] at hof
    simpa [Nat.ofDigits] using hof.symm
  exact hn hzero

theorem toStringNat_inj {m n : Nat} (h : toStringNat m = toStringNat n) :
    m = n := by
  by_cases hm : m = 0 <;> by_cases hn : n = 0
  · rw [hm, hn]
  · exfalso
    apply toStringNat_singleton_zero hn
    rw [← h, hm]
    rfl
  · exfalso
    apply toStringNat_singleton_zero hm
    rw [h, hn]
    rfl
  · rw [toStringNat, if_neg hm, toStringNat, if_neg hn] at h
    have hmap := List.reverse_injective h
    have hdig := map_digitChar_inj _ _
      (fun d hd => Nat.digits_lt_base (by norm_num) hd)
      (fun d hd => Nat.digits_lt_base (by norm_num) hd) hmap
    rw [← Nat.ofDigits_digits 10 m, hdig, Nat.ofDigits_digits]

theorem underscore_split : ∀ (a1 a2 b1 b2 : List Char),
    a1 ++ '_' :: b1 = a2 ++ '_' :: b2 → '_' ∉ b1 → '_' ∉ b2 →
    a1 = a2 ∧ b1 = b2 := by
  intro a1
  induction a1 with
  | nil =>
    intro a2 b1 b2 h hb1 hb2
    cases a2 with
    | nil =>
      simp only [List.nil_append, List.cons.injEq] at h
      exact ⟨rfl, h.2⟩
    | cons c t =>
      simp only [List.nil_append, List.cons_append, List.cons.injEq] at h
      obtain ⟨hc, hb⟩ := h
      exfalso
      apply hb1
      rw [hb]
      exact List.mem_append_right t (List.mem_cons_self _ _)
  | cons c t ih =>
    intro a2 b1 b2 h hb1 hb2
    cases a2 with
    | nil =>
      simp only [List.nil_append, List.cons_append, List.cons.injEq] at h
      obtain ⟨hc, hb⟩ := h
      exfalso
      apply hb2
      rw [← hb]
      exact List.mem_append_right t (List.mem_cons_self _ _)
    | cons c2 t2 =>
      simp only [List.cons_append, List.cons.injEq] at h
      obtain ⟨hc, ht⟩ := h
      obtain ⟨h1, h2⟩ := ih t2 b1 b2 ht hb1 hb2
      exact ⟨by rw [hc, h1], h2⟩

theorem fullname_inj {n1 n2 : List Char} {l1 l2 : Nat}
    (h : fullname n1 l1 = fullname n2 l2) : n1 = n2 ∧ l1 = l2 := by
  obtain ⟨h1, h2⟩ := underscore_split n1 n2 (toStringNat l1) (toStringNat l2) h
    (toStringNat_no_underscore l1) (toStringNat_no_underscore l2)
  exact ⟨h1, toStringNat_inj h2⟩

theorem mem_RunCreateCalls {st : List (List Char × Nat)} {ps : List (List Char)}
    {w : List Char} (hw : w ∈ RunCreateCalls st ps) :
    ∃ pfx l, w = fullname pfx l ∧ (lookupM st pfx).getD 0 ≤ l := by
  induction ps generalizing st with
  | nil => simp [RunCreateCalls] at hw
  | cons n ns ih =>
    rw [RunCreateCalls] at hw
    simp only [CreateTensorVarName] at hw
    rcases List.mem_cons.mp hw with rfl | hw'
    · exact ⟨n, (lookupM st n).getD 0, rfl, le_refl _⟩
    · obtain ⟨pfx, l, hwl, hge⟩ := ih hw'
      refine ⟨pfx, l, hwl, ?_⟩
      by_cases hpn : pfx = n
      · subst hpn
        rw [lookupM_setM, if_pos rfl] at hge
        simp only [Option.getD_some] at hge
        omega
      · rw [lookupM_setM, if_neg (fun he => hpn he.symm)] at hge
        exact hge

/-- C7: within one analyzer instance, any two distinct `CreateTensorVar`
calls return variables with distinct full names (`label_` gives each prefix
a monotonically increasing counter): for any starting `label_` map and any
sequence of requested prefixes, the produced name list has no duplicates. -/
theorem CreateTensorVar_names_distinct (st : List (List Char × Nat))
    (ps : List (List Char)) : (RunCreateCalls st ps).Nodup := by
  induction ps generalizing st with
  | nil => exact List.nodup_nil
  | cons n ns ih =>
    rw [RunCreateCalls]
    simp only [CreateTensorVarName]
    rw [List.nodup_cons]
    refine ⟨?_, ih _⟩
    intro hmem
    obtain ⟨pfx, l, hwl, hge⟩ := mem_RunCreateCalls hmem
    obtain ⟨hp, hl⟩ := fullname_inj hwl
    subst hp
    rw [lookupM_setM, if_pos rfl] at hge
    simp only [Option.getD_some] at hge
    omega

end LivenessAnalysis
